import Mathlib

/-!
Verification of the quantitative core of the Invexis gamified portfolio
management backend.

The development shallowly embeds, over exact arithmetic, the two numeric
modules of the backend:

* `python_backend/Blacklitterman.py` — the Black-Litterman blender
  (`calculate_posterior_returns`, `calculate_optimal_weights`) and the
  sentiment view generator (`get_sentiment_based_views`, modelled by
  `viewPairs`, `P_matrix`, `Q_vector`, `Omega_matrix`);
* `python_backend/monte_carlo.py` — the correlated multi-asset GBM path
  simulator (`get_MonteCarloPaths_CorrelatedMultiAsset`, modelled by
  `choleskyWithJitter`, `drift_vector`, `correlated_random_shocks`,
  `daily_returns_matrix`, `pricePath`, `mcPaths`) and the portfolio
  aggregator (`simulate_portfolio_value`, `num_shares`).

NumPy float arrays are modelled as matrices over `ℚ` (for the purely
rational arithmetic of the Black-Litterman module and the aggregator) or
over `ℝ` (for the simulator, which uses `exp` and `sqrt`).  A NumPy call
that can raise (`np.linalg.inv` on a singular matrix, an unbound local
variable) is modelled by an `Option` result, `none` standing for the
raised exception.  `np.linalg.cholesky` is external library code with no
source in the repository, so the decomposition attempt is an abstract
parameter `cholAttempt` returning `Option`; only the retry/fallback
control flow around it, which is repository code, is embedded.
-/

namespace Invexis

open Matrix

/-- Computable matrix inverse over `ℚ`.  On an invertible input this is the
exact-arithmetic counterpart of `np.linalg.inv`; the `det = 0` case is never
used on the success paths (the embedding branches on `det = 0` first, the
way the Python code catches `LinAlgError`). -/
def invQ {m : ℕ} (A : Matrix (Fin m) (Fin m) ℚ) : Matrix (Fin m) (Fin m) ℚ :=
  if A.det = 0 then 0 else A.det⁻¹ • A.adjugate

theorem invQ_eq_inv {m : ℕ} {A : Matrix (Fin m) (Fin m) ℚ} (h : A.det ≠ 0) :
    invQ A = A⁻¹ := by
  rw [invQ, if_neg h, Matrix.inv_def, Ring.inverse_eq_inv]

/-- `Blacklitterman.calculate_posterior_returns` (Blacklitterman.py lines
229-285).  `Pi` is handed over as an `N × 1` column, on which the
`np.atleast_2d`/transpose normalisation of lines 249-253 is the identity.
The branches, in source order:
* line 255: a pick matrix with zero rows returns `Pi` unchanged;
* line 259: `np.linalg.inv(tau * cov_matrix)` raises `LinAlgError` (not
  caught) when `tau·Σ` is singular — modelled as `none`;
* line 261: `Omega.size == 0` can only hold when `K = 0`, already returned;
* line 265: a `(1,1)` Omega whose single entry is `0` returns `Pi` (for
  `K = 1` the single entry being zero is exactly `∀ i j, Ω i j = 0`);
* lines 269-273: a singular Omega is caught and returns `Pi`;
* lines 279-283: a singular first bracket is caught and returns `Pi`;
* lines 276-285: otherwise the Black-Litterman closed form is returned. -/
def calculate_posterior_returns {n k : ℕ}
    (implied_eq_returns : Matrix (Fin n) (Fin 1) ℚ)
    (cov_matrix : Matrix (Fin n) (Fin n) ℚ)
    (P_mat : Matrix (Fin k) (Fin n) ℚ)
    (Q_vec : Matrix (Fin k) (Fin 1) ℚ)
    (Omega_mat : Matrix (Fin k) (Fin k) ℚ)
    (tau : ℚ) : Option (Matrix (Fin n) (Fin 1) ℚ) :=
  if k = 0 then some implied_eq_returns
  else if (tau • cov_matrix).det = 0 then none
  else if k = 1 ∧ (∀ i j, Omega_mat i j = 0) then some implied_eq_returns
  else if Omega_mat.det = 0 then some implied_eq_returns
  else
    let tau_sigma_inv := invQ (tau • cov_matrix)
    let Omega_inv := invQ Omega_mat
    let first_bracket := tau_sigma_inv + P_matᵀ * Omega_inv * P_mat
    let second_bracket := tau_sigma_inv * implied_eq_returns + P_matᵀ * Omega_inv * Q_vec
    if first_bracket.det = 0 then some implied_eq_returns
    else some (invQ first_bracket * second_bracket)

/-- Claim C2: with a pick matrix of zero rows (`K = 0`, empty `Q` and
`Omega`), `calculate_posterior_returns` returns `Pi` exactly, for every
`Pi`, `Sigma` and `tau`. -/
theorem posterior_returns_no_views {n : ℕ}
    (Pi : Matrix (Fin n) (Fin 1) ℚ) (Sigma : Matrix (Fin n) (Fin n) ℚ)
    (P_mat : Matrix (Fin 0) (Fin n) ℚ) (Q_vec : Matrix (Fin 0) (Fin 1) ℚ)
    (Omega_mat : Matrix (Fin 0) (Fin 0) ℚ) (tau : ℚ) :
    calculate_posterior_returns Pi Sigma P_mat Q_vec Omega_mat tau = some Pi := by
  rw [calculate_posterior_returns, if_pos rfl]

/-- Claim C1: for `N ≥ 1`, `K ≥ 1`, whenever `τ·Σ`, `Ω` and the bracket
`(τΣ)⁻¹ + Pᵀ Ω⁻¹ P` are all invertible, `calculate_posterior_returns`
returns exactly `[(τΣ)⁻¹ + PᵀΩ⁻¹P]⁻¹ · [(τΣ)⁻¹Π + PᵀΩ⁻¹Q]` as an `N × 1`
column. -/
theorem posterior_returns_closed_form {n k : ℕ}
    (Pi : Matrix (Fin n) (Fin 1) ℚ) (Sigma : Matrix (Fin n) (Fin n) ℚ)
    (P_mat : Matrix (Fin k) (Fin n) ℚ) (Q_vec : Matrix (Fin k) (Fin 1) ℚ)
    (Omega_mat : Matrix (Fin k) (Fin k) ℚ) (tau : ℚ)
    (hn : 0 < n) (hk : 0 < k)
    (hts : (tau • Sigma).det ≠ 0) (hO : Omega_mat.det ≠ 0)
    (hB : ((tau • Sigma)⁻¹ + P_matᵀ * Omega_mat⁻¹ * P_mat).det ≠ 0) :
    calculate_posterior_returns Pi Sigma P_mat Q_vec Omega_mat tau =
      some (((tau • Sigma)⁻¹ + P_matᵀ * Omega_mat⁻¹ * P_mat)⁻¹ *
        ((tau • Sigma)⁻¹ * Pi + P_matᵀ * Omega_mat⁻¹ * Q_vec)) := by
  have hk0 : ¬ k = 0 := by omega
  have h3 : ¬ (k = 1 ∧ ∀ i j, Omega_mat i j = 0) := by
    rintro ⟨rfl, hz⟩
    apply hO
    have hOz : Omega_mat = 0 := by
      ext i j
      exact hz i j
    rw [hOz]
    exact Matrix.det_zero ⟨(0 : Fin 1)⟩
  rw [calculate_posterior_returns, if_neg hk0, if_neg hts, if_neg h3, if_neg hO]
  simp only [invQ_eq_inv hts, invQ_eq_inv hO]
  rw [if_neg hB, invQ_eq_inv hB]

/-- Concrete instance of `posterior_returns_closed_form` at
`n = k = 1`, `Π = 0`, `Σ = P = Q = Ω = 1`, `τ = 1`. -/
theorem posterior_returns_closed_form_witness :
    ((1 : ℚ) • (1 : Matrix (Fin 1) (Fin 1) ℚ)).det ≠ 0
    ∧ (1 : Matrix (Fin 1) (Fin 1) ℚ).det ≠ 0
    ∧ (((1 : ℚ) • (1 : Matrix (Fin 1) (Fin 1) ℚ))⁻¹
        + (1 : Matrix (Fin 1) (Fin 1) ℚ)ᵀ * (1 : Matrix (Fin 1) (Fin 1) ℚ)⁻¹ * 1).det ≠ 0
    ∧ calculate_posterior_returns (0 : Matrix (Fin 1) (Fin 1) ℚ)
        (1 : Matrix (Fin 1) (Fin 1) ℚ) (1 : Matrix (Fin 1) (Fin 1) ℚ)
        (1 : Matrix (Fin 1) (Fin 1) ℚ) (1 : Matrix (Fin 1) (Fin 1) ℚ) (1 : ℚ) =
        some ((((1 : ℚ) • (1 : Matrix (Fin 1) (Fin 1) ℚ))⁻¹
            + (1 : Matrix (Fin 1) (Fin 1) ℚ)ᵀ * (1 : Matrix (Fin 1) (Fin 1) ℚ)⁻¹ * 1)⁻¹ *
          (((1 : ℚ) • (1 : Matrix (Fin 1) (Fin 1) ℚ))⁻¹ * 0
            + (1 : Matrix (Fin 1) (Fin 1) ℚ)ᵀ * (1 : Matrix (Fin 1) (Fin 1) ℚ)⁻¹ * 1)) := by
  have h1 : ((1 : ℚ) • (1 : Matrix (Fin 1) (Fin 1) ℚ)).det ≠ 0 := by
    simp
  have h2 : (1 : Matrix (Fin 1) (Fin 1) ℚ).det ≠ 0 := by
    simp
  have h3 : (((1 : ℚ) • (1 : Matrix (Fin 1) (Fin 1) ℚ))⁻¹
      + (1 : Matrix (Fin 1) (Fin 1) ℚ)ᵀ * (1 : Matrix (Fin 1) (Fin 1) ℚ)⁻¹ * 1).det ≠ 0 := by
    simp [Matrix.det_fin_one, Matrix.add_apply, Matrix.one_apply]
  exact ⟨h1, h2, h3,
    posterior_returns_closed_form (0 : Matrix (Fin 1) (Fin 1) ℚ)
      (1 : Matrix (Fin 1) (Fin 1) ℚ) (1 : Matrix (Fin 1) (Fin 1) ℚ)
      (1 : Matrix (Fin 1) (Fin 1) ℚ) (1 : Matrix (Fin 1) (Fin 1) ℚ) (1 : ℚ)
      (by norm_num) (by norm_num) h1 h2 h3⟩

/-- `Blacklitterman.calculate_optimal_weights` (Blacklitterman.py lines
288-331).  The posterior is handed over as an `N × 1` column, on which the
normalisation of lines 307-311 is the identity.  Branches in source order:
* lines 313-317: a singular covariance matrix is caught and the equal
  weight column `np.ones((N,1)) / N` is returned;
* line 320: `unscaled_weights = cov_inv @ posterior_returns / risk_aversion`
  (elementwise division by the scalar);
* lines 322-323: if `np.sum(unscaled_weights) != 0`, the normalised weights
  are returned;
* lines 325-326: otherwise the source executes
  `optimal_weights = np.ones_like(unscaled_weights) / len(optimal_weights)`,
  which reads the local `optimal_weights` before its first assignment and
  raises `UnboundLocalError` — modelled as `none`. -/
def calculate_optimal_weights {n : ℕ}
    (posterior_returns : Matrix (Fin n) (Fin 1) ℚ)
    (cov_matrix : Matrix (Fin n) (Fin n) ℚ)
    (risk_aversion : ℚ) : Option (Matrix (Fin n) (Fin 1) ℚ) :=
  if cov_matrix.det = 0 then some (fun _ _ => 1 / (n : ℚ))
  else
    let unscaled_weights : Matrix (Fin n) (Fin 1) ℚ :=
      fun i j => (invQ cov_matrix * posterior_returns) i j / risk_aversion
    if (∑ i, ∑ j, unscaled_weights i j) ≠ 0 then
      some (fun i j => unscaled_weights i j / ∑ a, ∑ b, unscaled_weights a b)
    else none

/-- Claim C3: for an `N × 1` posterior, an invertible `Σ` and a nonzero
risk aversion `δ`, whenever the raw weight vector `Σ⁻¹·posterior / δ` has
nonzero (entry) sum, `calculate_optimal_weights` returns a weight column
whose entries sum to exactly `1` (hence within `1e-9` of `1`). -/
theorem optimal_weights_sum_to_one {n : ℕ}
    (post : Matrix (Fin n) (Fin 1) ℚ) (Sigma : Matrix (Fin n) (Fin n) ℚ)
    (delta : ℚ) (hn : 0 < n) (hS : Sigma.det ≠ 0) (hd : delta ≠ 0)
    (hsum : (∑ i, ∑ j, (Sigma⁻¹ * post) i j / delta) ≠ 0) :
    (calculate_optimal_weights post Sigma delta).map (fun w => ∑ i, ∑ j, w i j)
      = some 1 := by
  rw [calculate_optimal_weights, if_neg hS]
  simp only [invQ_eq_inv hS]
  rw [if_pos hsum]
  simp only [Option.map_some']
  congr 1
  simp only [div_eq_mul_inv, ← Finset.sum_mul] at hsum ⊢
  exact mul_inv_cancel₀ hsum

/-- Concrete instance of `optimal_weights_sum_to_one` at `n = 1`,
`posterior = Σ = !![1]`, `δ = 1`. -/
theorem optimal_weights_sum_to_one_witness :
    (1 : Matrix (Fin 1) (Fin 1) ℚ).det ≠ 0
    ∧ (∑ i : Fin 1, ∑ j : Fin 1,
        ((1 : Matrix (Fin 1) (Fin 1) ℚ)⁻¹ * (1 : Matrix (Fin 1) (Fin 1) ℚ)) i j / (1 : ℚ)) ≠ 0
    ∧ (calculate_optimal_weights (1 : Matrix (Fin 1) (Fin 1) ℚ)
        (1 : Matrix (Fin 1) (Fin 1) ℚ) (1 : ℚ)).map (fun w => ∑ i, ∑ j, w i j)
      = some 1 := by
  have h1 : (1 : Matrix (Fin 1) (Fin 1) ℚ).det ≠ 0 := by simp
  have h2 : (∑ i : Fin 1, ∑ j : Fin 1,
      ((1 : Matrix (Fin 1) (Fin 1) ℚ)⁻¹ * (1 : Matrix (Fin 1) (Fin 1) ℚ)) i j / (1 : ℚ)) ≠ 0 := by
    simp [inv_one, Matrix.one_apply]
  exact ⟨h1, h2,
    optimal_weights_sum_to_one (1 : Matrix (Fin 1) (Fin 1) ℚ)
      (1 : Matrix (Fin 1) (Fin 1) ℚ) (1 : ℚ) (by norm_num) h1 (by norm_num) h2⟩

/-- Claim C4 (code bug): at `posterior = [[1], [-1]]`, `Σ = I₂`, `δ = 1`
the covariance matrix is invertible and the raw weight sum is exactly `0`,
and the function fails (the source raises `UnboundLocalError` at line 326,
`len(optimal_weights)` before assignment) instead of returning the equal
weight vector promised by its own warning message and by the spec. -/
theorem optimal_weights_zero_sum_crash :
    calculate_optimal_weights !![(1 : ℚ); -1] (1 : Matrix (Fin 2) (Fin 2) ℚ) 1 = none := by
  have hdet : (1 : Matrix (Fin 2) (Fin 2) ℚ).det ≠ 0 := by simp
  rw [calculate_optimal_weights, if_neg hdet]
  simp only [invQ_eq_inv hdet]
  have hz : (∑ i : Fin 2, ∑ j : Fin 1,
      ((1 : Matrix (Fin 2) (Fin 2) ℚ)⁻¹ * !![(1 : ℚ); -1]) i j / (1 : ℚ)) = 0 := by
    simp [inv_one, Fin.sum_univ_two]
  rw [if_neg (not_ne_iff.mpr hz)]

/-- The view loop of `Blacklitterman.get_sentiment_based_views`
(Blacklitterman.py lines 175-213).  Symbols are identified with their
indices `Fin n` (`ticker_index`), the per-symbol sentiment scores with
`senti`.  Under the `len(symbols) > 1` guard of line 188, the loop
`for i in range(1, len(symbols))` appends, for every non-pivot index `i`
whose sentiment differs from the pivot `symbols[0]` by strictly more than
`sentiment_diff_threshold = 0.10`, the pair of the index and the
difference `sentiment_diff`; `P_list` and `Q_list` are recovered from the
pairs by `P_matrix` and `Q_vector` below. -/
def viewPairs (n : ℕ) (senti : Fin n → ℚ) : List (Fin n × ℚ) :=
  if h : 1 < n then
    ((List.finRange n).filter fun i =>
        decide (0 < i.val ∧ (0.10 : ℚ) < |senti i - senti ⟨0, by omega⟩|)).map
      fun i => (i, senti i - senti ⟨0, by omega⟩)
  else []

/-- The rows appended at lines 202-205: `view_row[i] = 1`,
`view_row[0] = -1`, zero elsewhere (the two indices are distinct because
the loop starts at `i = 1`). -/
def P_matrix (n : ℕ) (senti : Fin n → ℚ) :
    Matrix (Fin (viewPairs n senti).length) (Fin n) ℚ :=
  fun j c =>
    if c = ((viewPairs n senti).get j).1 then 1
    else if c.val = 0 then -1 else 0

/-- The view returns appended at line 207:
`sentiment_diff * sentiment_to_return_factor` with factor `0.001`. -/
def Q_vector (n : ℕ) (senti : Fin n → ℚ) :
    Matrix (Fin (viewPairs n senti).length) (Fin 1) ℚ :=
  fun j _ => ((viewPairs n senti).get j).2 * 0.001

/-- Lines 219-223: for at least one view,
`Omega = diag(diag(P @ (0.025 * Sigma) @ P.T)) + 1e-9 * I`; with no views
`np.empty((0, 0))`, the unique `0 × 0` matrix. -/
def Omega_matrix (n : ℕ) (senti : Fin n → ℚ) (Sigma : Matrix (Fin n) (Fin n) ℚ) :
    Matrix (Fin (viewPairs n senti).length) (Fin (viewPairs n senti).length) ℚ :=
  if 0 < (viewPairs n senti).length then
    Matrix.diagonal
        (fun j => (P_matrix n senti * ((0.025 : ℚ) • Sigma) * (P_matrix n senti)ᵀ) j j)
      + (1e-9 : ℚ) • (1 : Matrix _ _ ℚ)
  else 0

theorem viewPairs_eq_nil {n : ℕ} (senti : Fin n → ℚ) (h : ¬ 1 < n) :
    viewPairs n senti = [] := by
  rw [viewPairs, dif_neg h]

theorem mem_viewPairs {n : ℕ} {senti : Fin n → ℚ} {x : Fin n × ℚ} (h1n : 1 < n) :
    x ∈ viewPairs n senti ↔
      0 < x.1.val ∧ (0.10 : ℚ) < |senti x.1 - senti ⟨0, by omega⟩|
        ∧ x.2 = senti x.1 - senti ⟨0, by omega⟩ := by
  rw [viewPairs, dif_pos h1n]
  constructor
  · intro hmem
    rcases List.mem_map.mp hmem with ⟨a, ha, hae⟩
    rcases List.mem_filter.mp ha with ⟨-, hcond⟩
    rcases of_decide_eq_true hcond with ⟨hpos, hthr⟩
    have h1 : x.1 = a := by rw [← hae]
    have h2 : x.2 = senti a - senti ⟨0, by omega⟩ := by rw [← hae]
    rw [h1, h2]
    exact ⟨hpos, hthr, rfl⟩
  · rintro ⟨hpos, hthr, hx2⟩
    refine List.mem_map.mpr ⟨x.1,
      List.mem_filter.mpr ⟨List.mem_finRange x.1, decide_eq_true ⟨hpos, hthr⟩⟩, ?_⟩
    rw [← hx2]

/-- Claim C5: a view row is emitted for asset `i ≥ 1` iff
`|senti i - senti 0| > 0.10`; each emitted row carries `+1` at its asset,
`-1` at the pivot `0`, zero elsewhere, with `Q` value
`(senti i - senti 0) * 0.001`; at most `N - 1` views are emitted, no view
compares the pivot to itself, and with `N ≤ 1` no views are produced. -/
theorem view_generation_characterisation (n : ℕ) (senti : Fin n → ℚ) :
    (∀ hn : 0 < n, ∀ i : Fin n, 0 < i.val →
      ((i, senti i - senti ⟨0, hn⟩) ∈ viewPairs n senti ↔
        (0.10 : ℚ) < |senti i - senti ⟨0, hn⟩|))
    ∧ (∀ hn : 0 < n, ∀ j : Fin (viewPairs n senti).length,
        0 < (((viewPairs n senti).get j).1).val
        ∧ P_matrix n senti j ((viewPairs n senti).get j).1 = 1
        ∧ P_matrix n senti j ⟨0, hn⟩ = -1
        ∧ (∀ c : Fin n, c ≠ ((viewPairs n senti).get j).1 → c.val ≠ 0 →
            P_matrix n senti j c = 0)
        ∧ Q_vector n senti j 0 =
            (senti (((viewPairs n senti).get j).1) - senti ⟨0, hn⟩) * 0.001)
    ∧ (viewPairs n senti).length ≤ n - 1
    ∧ (n ≤ 1 → viewPairs n senti = []) := by
  refine ⟨?_, ?_, ?_, ?_⟩
  · intro hn i hi
    have h1n : 1 < n := by omega
    rw [mem_viewPairs h1n]
    constructor
    · intro h
      exact h.2.1
    · intro hthr
      exact ⟨hi, hthr, rfl⟩
  · intro hn j
    by_cases h1n : 1 < n
    · have hmem : (viewPairs n senti).get j ∈ viewPairs n senti := List.get_mem _ _ _
      rcases (mem_viewPairs h1n).mp hmem with ⟨hpos, -, hsnd⟩
      refine ⟨hpos, ?_, ?_, ?_, ?_⟩
      · rw [P_matrix, if_pos rfl]
      · rw [P_matrix]
        rw [if_neg ?_, if_pos rfl]
        intro hc
        have hv := congrArg Fin.val hc
        simp only [] at hv
        omega
      · intro c hc hc0
        rw [P_matrix, if_neg hc, if_neg hc0]
      · rw [Q_vector, hsnd]
    · exfalso
      have hlen0 : (viewPairs n senti).length = 0 := by
        rw [viewPairs_eq_nil senti h1n]
        rfl
      have := j.isLt
      omega
  · by_cases h1n : 1 < n
    · have hnd : (viewPairs n senti).Nodup := by
        rw [viewPairs, dif_pos h1n]
        exact ((List.nodup_finRange n).filter _).map (fun a b hab => by
          have h1 := congrArg Prod.fst hab
          exact h1)
      have hne : ∀ x ∈ viewPairs n senti, x.1 ≠ (⟨0, by omega⟩ : Fin n) := by
        intro x hx hx0
        have := ((mem_viewPairs h1n).mp hx).1
        rw [hx0] at this
        exact absurd this (by simp)
      have hinj : (viewPairs n senti).map Prod.fst |>.Nodup := by
        rw [viewPairs, dif_pos h1n, List.map_map]
        have : (Prod.fst ∘ fun i : Fin n =>
            (i, senti i - senti ⟨0, by omega⟩)) = id := rfl
        rw [this, List.map_id]
        exact (List.nodup_finRange n).filter _
      have hsub : ((viewPairs n senti).map Prod.fst).toFinset ⊆
          Finset.univ.erase (⟨0, by omega⟩ : Fin n) := by
        intro x hx
        rcases List.mem_map.mp (List.mem_toFinset.mp hx) with ⟨a, ha, hae⟩
        refine Finset.mem_erase.mpr ⟨?_, Finset.mem_univ x⟩
        rw [← hae]
        exact hne a ha
      calc (viewPairs n senti).length
          = ((viewPairs n senti).map Prod.fst).length := (List.length_map _ _).symm
        _ = ((viewPairs n senti).map Prod.fst).toFinset.card :=
            (List.toFinset_card_of_nodup hinj).symm
        _ ≤ (Finset.univ.erase (⟨0, by omega⟩ : Fin n)).card := Finset.card_le_card hsub
        _ = n - 1 := by
            rw [Finset.card_erase_of_mem (Finset.mem_univ _), Finset.card_univ,
              Fintype.card_fin]
    · rw [viewPairs_eq_nil senti h1n]
      simp
  · intro hn1
    exact viewPairs_eq_nil senti (by omega)

/-- Concrete instance of `view_generation_characterisation`: with
sentiments `[0, 1]` a view is emitted for asset `1` (difference `1`),
and with a single symbol no view is emitted. -/
theorem view_generation_witness :
    ((⟨1, by norm_num⟩ : Fin 2), (1 : ℚ)) ∈ viewPairs 2 ![0, 1]
    ∧ viewPairs 1 ![(0 : ℚ)] = [] := by
  constructor
  · have h := ((view_generation_characterisation 2 ![0, 1]).1 (by norm_num)
      ⟨1, by norm_num⟩ (by norm_num)).mpr (by norm_num)
    simpa using h
  · exact (view_generation_characterisation 1 ![(0 : ℚ)]).2.2.2 (by norm_num)

theorem quad_swap {n : ℕ} (c : ℚ) (x : Fin n → ℚ) (M : Matrix (Fin n) (Fin n) ℚ) :
    ∑ a, (∑ b, x b * (c * M b a)) * x a = c * ∑ a, ∑ b, x a * M a b * x b := by
  simp only [Finset.sum_mul]
  rw [Finset.sum_comm, Finset.mul_sum]
  refine Finset.sum_congr rfl fun b _ => ?_
  rw [Finset.mul_sum]
  refine Finset.sum_congr rfl fun a _ => ?_
  ring

theorem omega_diag_entry_nonneg {n : ℕ} (senti : Fin n → ℚ)
    (Sigma : Matrix (Fin n) (Fin n) ℚ)
    (hPSD : ∀ x : Fin n → ℚ, 0 ≤ ∑ a, ∑ b, x a * Sigma a b * x b)
    (j : Fin (viewPairs n senti).length) :
    0 ≤ (P_matrix n senti * ((0.025 : ℚ) • Sigma) * (P_matrix n senti)ᵀ) j j := by
  have hexp : (P_matrix n senti * ((0.025 : ℚ) • Sigma) * (P_matrix n senti)ᵀ) j j
      = (0.025 : ℚ) * ∑ a, ∑ b,
          P_matrix n senti j a * Sigma a b * P_matrix n senti j b := by
    rw [Matrix.mul_apply]
    simp only [Matrix.mul_apply, Matrix.transpose_apply, Matrix.smul_apply, smul_eq_mul]
    exact quad_swap (0.025 : ℚ) (P_matrix n senti j) Sigma
  rw [hexp]
  exact mul_nonneg (by norm_num) (hPSD _)

/-- Claim C9: with at least one view, the returned `Omega` is the diagonal
matrix `diag(diag(P · (0.025·Σ) · Pᵀ)) + 1e-9·I`, whose diagonal is
strictly positive (hence `Omega` invertible) whenever `Σ` is positive
semi-definite; with no view, the `0 × N`, `0 × 1` and `0 × 0` empty
matrices are returned (the `0 × 0` one being the unique such matrix, `0`),
with no error raised. -/
theorem omega_structure (n : ℕ) (senti : Fin n → ℚ)
    (Sigma : Matrix (Fin n) (Fin n) ℚ)
    (hPSD : ∀ x : Fin n → ℚ, 0 ≤ ∑ a, ∑ b, x a * Sigma a b * x b) :
    (∀ j : Fin (viewPairs n senti).length,
      Omega_matrix n senti Sigma j j
        = (P_matrix n senti * ((0.025 : ℚ) • Sigma) * (P_matrix n senti)ᵀ) j j
            + 1e-9
      ∧ 0 < Omega_matrix n senti Sigma j j)
    ∧ (∀ j j' : Fin (viewPairs n senti).length, j ≠ j' →
        Omega_matrix n senti Sigma j j' = 0)
    ∧ (Omega_matrix n senti Sigma).det ≠ 0
    ∧ ((viewPairs n senti).length = 0 → Omega_matrix n senti Sigma = 0) := by
  have hdiag : ∀ j : Fin (viewPairs n senti).length,
      Omega_matrix n senti Sigma j j
        = (P_matrix n senti * ((0.025 : ℚ) • Sigma) * (P_matrix n senti)ᵀ) j j
            + 1e-9 := by
    intro j
    rw [Omega_matrix, if_pos j.pos]
    simp [Matrix.add_apply, Matrix.diagonal_apply_eq, Matrix.smul_apply,
      Matrix.one_apply_eq]
  have hpos : ∀ j : Fin (viewPairs n senti).length,
      0 < Omega_matrix n senti Sigma j j := by
    intro j
    rw [hdiag j]
    have := omega_diag_entry_nonneg senti Sigma hPSD j
    have heps : (0 : ℚ) < 1e-9 := by norm_num
    linarith
  refine ⟨fun j => ⟨hdiag j, hpos j⟩, ?_, ?_, ?_⟩
  · intro j j' hne
    rw [Omega_matrix, if_pos j.pos]
    simp [Matrix.add_apply, Matrix.diagonal_apply_ne _ hne, Matrix.smul_apply,
      Matrix.one_apply_ne hne]
  · by_cases hlen : 0 < (viewPairs n senti).length
    · have hform : Omega_matrix n senti Sigma = Matrix.diagonal
          (fun j => (P_matrix n senti * ((0.025 : ℚ) • Sigma)
            * (P_matrix n senti)ᵀ) j j + 1e-9) := by
        ext i j'
        by_cases hij : i = j'
        · subst hij
          rw [hdiag i, Matrix.diagonal_apply_eq]
        · rw [Omega_matrix, if_pos hlen]
          simp [Matrix.add_apply, Matrix.diagonal_apply_ne _ hij,
            Matrix.smul_apply, Matrix.one_apply_ne hij]
      rw [hform, Matrix.det_diagonal]
      refine Finset.prod_ne_zero_iff.mpr fun j _ => ?_
      have h1 := omega_diag_entry_nonneg senti Sigma hPSD j
      have heps : (0 : ℚ) < 1e-9 := by norm_num
      intro h0
      linarith
    · haveI : IsEmpty (Fin (viewPairs n senti).length) := by
        rw [Nat.eq_zero_of_not_pos hlen]
        infer_instance
      rw [Matrix.det_isEmpty]
      norm_num
  · intro h0
    rw [Omega_matrix, if_neg (by omega)]

/-- Concrete instance of `omega_structure`: the zero covariance matrix is
positive semi-definite, and with sentiments `[0, 1]` (one view) the
resulting `Omega` is invertible. -/
theorem omega_structure_witness :
    (Omega_matrix 2 ![0, 1] (0 : Matrix (Fin 2) (Fin 2) ℚ)).det ≠ 0 :=
  (omega_structure 2 ![0, 1] (0 : Matrix (Fin 2) (Fin 2) ℚ)
    (by intro x; simp)).2.2.1

/-! ## Monte Carlo simulator (`monte_carlo.py`)

`get_MonteCarloPaths_CorrelatedMultiAsset` (lines 13-164).  The data
download and filtering of lines 39-93 produce `mean_log_returns` (line 89)
and the last observed prices `S0_vector` (line 120); both enter the
embedding as parameters, as do the raw `norm.ppf(np.random.rand(...))`
draws of line 126 (`independent_shocks`, indexed asset/run/step).  The
`np.linalg.cholesky` routine is NumPy library code, modelled by the
abstract attempt function `cholAttempt` (`none` = `LinAlgError`). -/

/-- monte_carlo.py line 10 (set to `1.0` for production). -/
noncomputable def VOLATILITY_MAGNIFICATION_FACTOR_GLOBAL : ℝ := 1.0

/-- Line 112: `drift_vector = mean_log_returns - 0.5 * np.diag(cov_matrix)`. -/
noncomputable def drift_vector {n : ℕ} (mean_log_returns : Fin n → ℝ)
    (cov_matrix : Matrix (Fin n) (Fin n) ℝ) : Fin n → ℝ :=
  fun i => mean_log_returns i - 0.5 * cov_matrix i i

/-- Line 127: `np.einsum('ij,jkl->ikl', cholesky_matrix, independent_shocks)`. -/
noncomputable def correlated_random_shocks {n : ℕ}
    (cholesky_matrix : Matrix (Fin n) (Fin n) ℝ)
    (independent_shocks : Fin n → ℕ → ℕ → ℝ) : Fin n → ℕ → ℕ → ℝ :=
  fun i r t => ∑ j, cholesky_matrix i j * independent_shocks j r t

/-- Lines 130-131: the correlated shocks scaled by
`np.sqrt(np.diag(cov_matrix))` and the global magnification factor. -/
noncomputable def random_term {n : ℕ} (cov_matrix : Matrix (Fin n) (Fin n) ℝ)
    (cholesky_matrix : Matrix (Fin n) (Fin n) ℝ)
    (independent_shocks : Fin n → ℕ → ℕ → ℝ) : Fin n → ℕ → ℕ → ℝ :=
  fun i r t => correlated_random_shocks cholesky_matrix independent_shocks i r t
    * Real.sqrt (cov_matrix i i) * VOLATILITY_MAGNIFICATION_FACTOR_GLOBAL

/-- Line 146: `np.exp(drift_vector_reshaped + random_term)`. -/
noncomputable def daily_returns_matrix {n : ℕ} (mean_log_returns : Fin n → ℝ)
    (cov_matrix : Matrix (Fin n) (Fin n) ℝ)
    (cholesky_matrix : Matrix (Fin n) (Fin n) ℝ)
    (independent_shocks : Fin n → ℕ → ℕ → ℝ) : Fin n → ℕ → ℕ → ℝ :=
  fun i r t => Real.exp (drift_vector mean_log_returns cov_matrix i
    + random_term cov_matrix cholesky_matrix independent_shocks i r t)

/-- Lines 123-124 and 157-158: `all_price_paths_raw[:, :, 0] = S0` and
`all_price_paths_raw[:, :, t] =
 all_price_paths_raw[:, :, t-1] * daily_returns_matrix[:, :, t-1]`. -/
noncomputable def all_price_paths_raw {n : ℕ} (mean_log_returns : Fin n → ℝ)
    (cov_matrix : Matrix (Fin n) (Fin n) ℝ)
    (cholesky_matrix : Matrix (Fin n) (Fin n) ℝ)
    (independent_shocks : Fin n → ℕ → ℕ → ℝ)
    (S0_vector : Fin n → ℝ) (i : Fin n) (r : ℕ) : ℕ → ℝ
  | 0 => S0_vector i
  | t + 1 => all_price_paths_raw mean_log_returns cov_matrix cholesky_matrix
      independent_shocks S0_vector i r t
    * daily_returns_matrix mean_log_returns cov_matrix cholesky_matrix
      independent_shocks i r t

/-- Lines 95-104: try `np.linalg.cholesky(cov_matrix)`; on `LinAlgError`
add the diagonal jitter `np.eye(num_assets) * 1e-7` and retry exactly
once. -/
noncomputable def choleskyWithJitter {n : ℕ}
    (cholAttempt : Matrix (Fin n) (Fin n) ℝ → Option (Matrix (Fin n) (Fin n) ℝ))
    (cov_matrix : Matrix (Fin n) (Fin n) ℝ) : Option (Matrix (Fin n) (Fin n) ℝ) :=
  match cholAttempt cov_matrix with
  | some L => some L
  | none => cholAttempt (cov_matrix + (1e-7 : ℝ) • 1)

/-- The per-symbol output of lines 95-164: on a second Cholesky failure the
zero-filled `(time_intervals, iteration)` arrays of line 104, otherwise the
transposed price paths of lines 160-163 (`[t][r]` indexing). -/
noncomputable def mcPaths {n : ℕ}
    (cholAttempt : Matrix (Fin n) (Fin n) ℝ → Option (Matrix (Fin n) (Fin n) ℝ))
    (mean_log_returns : Fin n → ℝ) (cov_matrix : Matrix (Fin n) (Fin n) ℝ)
    (S0_vector : Fin n → ℝ) (independent_shocks : Fin n → ℕ → ℕ → ℝ)
    (time_intervals iteration : ℕ) :
    Fin n → Fin time_intervals → Fin iteration → ℝ :=
  match choleskyWithJitter cholAttempt cov_matrix with
  | none => fun _ _ _ => 0
  | some L => fun i t r => all_price_paths_raw mean_log_returns cov_matrix L
      independent_shocks S0_vector i r.val t.val

/-- Claim C6: when Cholesky decomposition (possibly after the jitter retry)
yields `L`, every simulated price satisfies
`S[t] = S[t-1] * exp(drift_i + sqrt(Σ[i,i]) * (L z)_i)` with
`drift_i = mean_log_return_i - 0.5 * Σ[i,i]`, the standard-normal draws `z`
shared across assets per `(run, step)` pair, and `S[0]` the last observed
price. -/
theorem gbm_step_recurrence {n : ℕ}
    (cholAttempt : Matrix (Fin n) (Fin n) ℝ → Option (Matrix (Fin n) (Fin n) ℝ))
    (mean_log_returns : Fin n → ℝ) (cov_matrix : Matrix (Fin n) (Fin n) ℝ)
    (S0_vector : Fin n → ℝ) (independent_shocks : Fin n → ℕ → ℕ → ℝ)
    (T R : ℕ) (L : Matrix (Fin n) (Fin n) ℝ)
    (hL : choleskyWithJitter cholAttempt cov_matrix = some L)
    (i : Fin n) (t r : ℕ) (ht : t + 1 < T) (hr : r < R) :
    mcPaths cholAttempt mean_log_returns cov_matrix S0_vector independent_shocks
        T R i ⟨t + 1, ht⟩ ⟨r, hr⟩
      = mcPaths cholAttempt mean_log_returns cov_matrix S0_vector
          independent_shocks T R i ⟨t, by omega⟩ ⟨r, hr⟩
        * Real.exp ((mean_log_returns i - 0.5 * cov_matrix i i)
            + Real.sqrt (cov_matrix i i)
              * ∑ j, L i j * independent_shocks j r t)
    ∧ (∀ h0 : 0 < T,
        mcPaths cholAttempt mean_log_returns cov_matrix S0_vector
          independent_shocks T R i ⟨0, h0⟩ ⟨r, hr⟩ = S0_vector i) := by
  constructor
  · simp only [mcPaths, hL]
    simp only [all_price_paths_raw, daily_returns_matrix, random_term,
      correlated_random_shocks, drift_vector, VOLATILITY_MAGNIFICATION_FACTOR_GLOBAL]
    congr 2
    ring
  · intro h0
    simp only [mcPaths, hL]
    simp only [all_price_paths_raw]

/-- Concrete instance of `gbm_step_recurrence` at `n = 1`, a trivially
succeeding decomposition, zero covariance and zero shocks. -/
theorem gbm_step_recurrence_witness :
    mcPaths (fun _ => some (1 : Matrix (Fin 1) (Fin 1) ℝ)) (fun _ => 0)
        (0 : Matrix (Fin 1) (Fin 1) ℝ) (fun _ => 1) (fun _ _ _ => 0) 2 1
        0 ⟨1, by norm_num⟩ ⟨0, by norm_num⟩
      = mcPaths (fun _ => some (1 : Matrix (Fin 1) (Fin 1) ℝ)) (fun _ => 0)
          (0 : Matrix (Fin 1) (Fin 1) ℝ) (fun _ => 1) (fun _ _ _ => 0) 2 1
          0 ⟨0, by norm_num⟩ ⟨0, by norm_num⟩
        * Real.exp (((fun _ : Fin 1 => (0 : ℝ)) 0
              - 0.5 * (0 : Matrix (Fin 1) (Fin 1) ℝ) 0 0)
            + Real.sqrt ((0 : Matrix (Fin 1) (Fin 1) ℝ) 0 0)
              * ∑ j, (1 : Matrix (Fin 1) (Fin 1) ℝ) 0 j * (0 : ℝ)) :=
  (gbm_step_recurrence (fun _ => some (1 : Matrix (Fin 1) (Fin 1) ℝ)) (fun _ => 0)
    (0 : Matrix (Fin 1) (Fin 1) ℝ) (fun _ => 1) (fun _ _ _ => 0) 2 1
    (1 : Matrix (Fin 1) (Fin 1) ℝ) rfl 0 0 0 (by norm_num) (by norm_num)).1

/-- Claim C7: when the first Cholesky attempt fails, a `1e-7` diagonal
jitter is added and the decomposition retried exactly once; when the retry
also fails, every processed symbol receives a zero-filled
`(time_intervals, iteration)` array instead of an exception. -/
theorem cholesky_retry_and_zero_fallback {n : ℕ}
    (cholAttempt : Matrix (Fin n) (Fin n) ℝ → Option (Matrix (Fin n) (Fin n) ℝ))
    (mean_log_returns : Fin n → ℝ) (cov_matrix : Matrix (Fin n) (Fin n) ℝ)
    (S0_vector : Fin n → ℝ) (independent_shocks : Fin n → ℕ → ℕ → ℝ)
    (T R : ℕ) (hfail : cholAttempt cov_matrix = none) :
    choleskyWithJitter cholAttempt cov_matrix
        = cholAttempt (cov_matrix + (1e-7 : ℝ) • 1)
    ∧ (cholAttempt (cov_matrix + (1e-7 : ℝ) • 1) = none →
        ∀ (i : Fin n) (t : Fin T) (r : Fin R),
          mcPaths cholAttempt mean_log_returns cov_matrix S0_vector
            independent_shocks T R i t r = 0) := by
  constructor
  · rw [choleskyWithJitter, hfail]
  · intro h2 i t r
    have hnone : choleskyWithJitter cholAttempt cov_matrix = none := by
      rw [choleskyWithJitter, hfail, h2]
    rw [mcPaths, hnone]

/-- Concrete instance of `cholesky_retry_and_zero_fallback` with an
always-failing decomposition attempt at `n = T = R = 1`. -/
theorem cholesky_retry_and_zero_fallback_witness :
    choleskyWithJitter (fun _ => (none : Option (Matrix (Fin 1) (Fin 1) ℝ)))
        (0 : Matrix (Fin 1) (Fin 1) ℝ) = none
    ∧ mcPaths (fun _ => (none : Option (Matrix (Fin 1) (Fin 1) ℝ)))
        (fun _ => 0) (0 : Matrix (Fin 1) (Fin 1) ℝ) (fun _ => 1)
        (fun _ _ _ => 0) 1 1 0 0 0 = 0 := by
  have h := cholesky_retry_and_zero_fallback
    (fun _ => (none : Option (Matrix (Fin 1) (Fin 1) ℝ))) (fun _ => 0)
    (0 : Matrix (Fin 1) (Fin 1) ℝ) (fun _ => 1) (fun _ _ _ => 0) 1 1 rfl
  exact ⟨h.1.trans rfl, h.2 rfl 0 0 0⟩

/-! ## Portfolio aggregator (`monte_carlo.py`, `simulate_portfolio_value`) -/

/-- Lines 197-203: dollar allocations
`initial_allocations = initial_portfolio_value * optimal_weights` converted
to fixed share counts by the step-0 price
`initial_prices = [...][0, 0]`, with zero-price assets getting zero
shares. -/
def num_shares {N : ℕ} (initial_portfolio_value : ℚ)
    (optimal_weights : Fin N → ℚ)
    (simulated_asset_paths : Fin N → ℕ → ℕ → ℚ) : Fin N → ℚ :=
  fun i => if simulated_asset_paths i 0 0 ≠ 0
    then initial_portfolio_value * optimal_weights i / simulated_asset_paths i 0 0
    else 0

/-- `simulate_portfolio_value` (monte_carlo.py lines 166-215).  Assets are
identified with indices `Fin N` in dictionary order; the weight column is
flattened to `Fin N → ℚ`; the matching-length check of line 188 holds by
typing.  For an empty dictionary the source returns the empty array
`np.array([])` (lines 182-184), which has no `[t][r]` entries — modelled
as `none`.  Otherwise (lines 205-213), for each run the values at steps
`t ≥ 1` are `Σ_j num_shares[j] * paths[j][t][r]` and the step-0 value is
overwritten with `initial_portfolio_value`. -/
def simulate_portfolio_value {N : ℕ} (initial_portfolio_value : ℚ)
    (optimal_weights : Fin N → ℚ)
    (simulated_asset_paths : Fin N → ℕ → ℕ → ℚ) : Option (ℕ → ℕ → ℚ) :=
  if N = 0 then none
  else some fun t r =>
    if t = 0 then initial_portfolio_value
    else ∑ j, num_shares initial_portfolio_value optimal_weights
        simulated_asset_paths j * simulated_asset_paths j t r

/-- Claim C10: for a non-empty path dictionary, the portfolio value at step
`0` is exactly `initial_portfolio_value` in every run, unconditionally —
whatever the weights and the step-0 prices. -/
theorem portfolio_value_step_zero {N : ℕ} (V0 : ℚ) (w : Fin (N + 1) → ℚ)
    (paths : Fin (N + 1) → ℕ → ℕ → ℚ) (r : ℕ) :
    (simulate_portfolio_value V0 w paths).map (fun f => f 0 r) = some V0 := by
  rw [simulate_portfolio_value, if_neg (Nat.succ_ne_zero N)]
  simp

/-- Counterexample to claim C8 as stated: with one asset, weight `2`,
constant price `1` and initial value `100`, the returned value at step `0`
is `100` while the holdings sum `Σ_j shares_j * price_j[0][0]` is `200`. -/
theorem portfolio_value_holdings_step_zero_cex :
    (simulate_portfolio_value (N := 1) 100 (fun _ => 2)
        (fun _ _ _ => 1)).map (fun f => f 0 0) = some 100
    ∧ (∑ j : Fin 1, num_shares (N := 1) 100 (fun _ => 2) (fun _ _ _ => 1) j
        * (1 : ℚ)) = 200
    ∧ (100 : ℚ) ≠ 200 := by
  refine ⟨?_, ?_, by norm_num⟩
  · rw [simulate_portfolio_value, if_neg (by norm_num)]
    simp
  · simp [num_shares]
    norm_num

/-- Claim C8 (amended to steps `t ≥ 1`): for every step `t ≥ 1` and every
run `r`, the returned portfolio value at `[t][r]` is
`Σ_j shares_j * price_j[t][r]`, the share counts being fixed at step 0 by
`num_shares` (zero for a zero step-0 price); at step 0 the source instead
stores `initial_portfolio_value` (see
`portfolio_value_holdings_step_zero_cex` and `portfolio_value_step_zero`). -/
theorem portfolio_value_holdings_from_step_one {N : ℕ} (V0 : ℚ)
    (w : Fin N → ℚ) (paths : Fin N → ℕ → ℕ → ℚ) (t r : ℕ)
    (hN : N ≠ 0) (ht : 1 ≤ t) :
    (simulate_portfolio_value V0 w paths).map (fun f => f t r)
      = some (∑ j, num_shares V0 w paths j * paths j t r) := by
  rw [simulate_portfolio_value, if_neg hN]
  simp only [Option.map_some']
  rw [if_neg (by omega)]

/-- Concrete instance of `portfolio_value_holdings_from_step_one` at one
asset, unit weight and constant unit price. -/
theorem portfolio_value_holdings_from_step_one_witness :
    (1 : ℕ) ≠ 0 ∧ (1 : ℕ) ≤ 1
    ∧ (simulate_portfolio_value (N := 1) 100 (fun _ => 1)
        (fun _ _ _ => 1)).map (fun f => f 1 0)
      = some (∑ j : Fin 1, num_shares (N := 1) 100 (fun _ => 1)
          (fun _ _ _ => 1) j * 1) :=
  ⟨by norm_num, le_refl 1,
    portfolio_value_holdings_from_step_one 100 (fun _ => 1) (fun _ _ _ => 1) 1 0
      (by norm_num) (le_refl 1)⟩

end Invexis
